import Mathlib

/-!
Verification of the romba storage core (packages `db`, `worker`, `archive`).

Go byte slices are embedded as `List Nat`, Go strings as `List Char`.
A `nil` slice is distinguished from an empty one by `Option`.
Go's `error` values are embedded by the inductive `GoErr`; a `nil` error is
`Option.none`.  Functions that can panic or diverge return `Option`, with
`none` marking the abnormal outcome.
-/

namespace Romba

/-- Embedding of Go `error` values.  `flushFail e` models the wrapped error
built by `fmt.Errorf("failed to flush: %v", e)` in `refreshWorker.Process`. -/
inductive GoErr where
  | code : Nat → GoErr
  | flushFail : GoErr → GoErr
deriving DecidableEq

/-- Embedding of `os.FileInfo` as far as `worker.go` consumes it:
`Name()`, `Size()` and `IsDir()`. -/
structure FileInfo where
  name : List Char
  size : Int
  isDir : Bool
deriving DecidableEq

/-- Opaque stand-in for `*types.Dat` values produced by the parser. -/
structure Dat where
  id : Nat
deriving DecidableEq

/-! ## `db.Upd` — the multi-value merge

`Upd(key, value, old)` (src/db/db.go:97-117) scans `old` in strides of
`len(value)` bytes.  The Go `for` loop is embedded with explicit fuel:
each recursive call consumes one unit.  `outOfRange` models the panic of
the slice expression `old[i:i+vsize]` when `i+vsize > len(old)`
(slice capacity is taken to equal its length). -/

/-- Outcome of the stride scan inside `Upd`: a stride equal to `value` was
hit, the scan ran off the end without a hit, or a slice was out of range. -/
inductive ScanOutcome where
  | hit : ScanOutcome
  | miss : ScanOutcome
  | outOfRange : ScanOutcome
deriving DecidableEq

/-- Fueled embedding of the loop
`for i := 0; i < len(old); i += vsize { if bytes.Equal(value, old[i:i+vsize]) ... }`.
Returns `none` when the fuel runs out before the loop settles. -/
def updScanF : Nat → List Nat → List Nat → Nat → Option ScanOutcome
  | 0, _, _, _ => none
  | fuel + 1, value, old, i =>
    if i < old.length then
      if i + value.length ≤ old.length then
        if (old.drop i).take value.length = value then some ScanOutcome.hit
        else updScanF fuel value old (i + value.length)
      else some ScanOutcome.outOfRange
    else some ScanOutcome.miss

/-- Embedding of `db.Upd` (the `key` argument is unused by the source).
`old = none` is Go's `old == nil`.  The result pairs the returned value
(`none` embeds a `nil` result slice, i.e. the no-change case) with the
`changed` boolean.  The whole result is `none` when the Go code panics
(out-of-range stride slice) or diverges; fuel `old.length + 1` is enough
for every terminating run of the loop, as proved below. -/
def Upd (value : List Nat) (old : Option (List Nat)) :
    Option (Option (List Nat) × Bool) :=
  match old with
  | none => some (some value, true)
  | some o =>
    match updScanF (o.length + 1) value o 0 with
    | some ScanOutcome.hit => some (none, false)
    | some ScanOutcome.miss => some (some (o ++ value), true)
    | _ => none

/-- Does some stride of `old` (at an index that is a multiple of
`value.length`) equal `value` byte-wise?  Executable form of the claim's
"some stride of existing equals newItem". -/
def strideMem (value old : List Nat) : Bool :=
  (List.range (old.length + 1)).any fun m =>
    decide (m * value.length < old.length) &&
      decide ((old.drop (m * value.length)).take value.length = value)

/-- Stride hit within the `k` strides starting at offset `i`. -/
def strideFrom (value old : List Nat) (i k : Nat) : Bool :=
  (List.range k).any fun m =>
    decide ((old.drop (i + m * value.length)).take value.length = value)

/-! ## Paths (POSIX)

The repository goes through `path/filepath` everywhere.  The embedding
fixes the POSIX instantiation: `filepath.Separator = '/'` and
`filepath.VolumeName = ""`. -/

/-- `filepath.IsAbs` on POSIX: the path starts with `'/'`. -/
def isAbsPath (p : List Char) : Bool :=
  decide (p.head? = some '/')

/-- Split a path at every `'/'`, keeping empty components
(`"/a//b"` splits into `["", "a", "", "b"]`). -/
def splitSlash : List Char → List (List Char)
  | [] => [[]]
  | c :: rest =>
    if c = '/' then [] :: splitSlash rest
    else
      match splitSlash rest with
      | [] => [[c]]
      | g :: gs => (c :: g) :: gs

/-- One step of `filepath.Clean`'s component resolution (accumulator is the
resolved components in reverse): empty and `"."` components are dropped,
`".."` pops a resolvable component (and is dropped at the root of a rooted
path), anything else is kept. -/
def cleanStep (rooted : Bool) (acc : List (List Char)) (c : List Char) :
    List (List Char) :=
  if c = [] ∨ c = ['.'] then acc
  else if c = ['.', '.'] then
    match acc with
    | [] => if rooted then [] else [['.', '.']]
    | top :: rest => if top = ['.', '.'] then ['.', '.'] :: acc else rest
  else c :: acc

/-- Modelled from the Go standard library `path/filepath.Clean` (POSIX
rules, an external collaborator of this repository): apply the Plan 9
cleaning rules — drop empty and `"."` components, resolve `".."`, keep the
leading `'/'` of a rooted path, and return `"."` for an empty result. -/
def clean (p : List Char) : List Char :=
  if p = [] then ['.']
  else
    let rooted := isAbsPath p
    let resolved := ((splitSlash p).foldl (cleanStep rooted) []).reverse
    if rooted then '/' :: List.intercalate ['/'] resolved
    else if resolved = [] then ['.']
    else List.intercalate ['/'] resolved

/-- Modelled from the Go standard library `path/filepath.Join` (POSIX):
join the non-empty elements with `'/'` and clean the result; all-empty
input yields `""`.  (Go skips only leading empty elements before joining,
but `Clean` collapses the duplicate separators interior empties would
leave, so filtering all empties is equivalent.) -/
def joinPath (pieces : List (List Char)) : List Char :=
  let nonEmpty := pieces.filter fun s => !s.isEmpty
  if nonEmpty.isEmpty then [] else clean (List.intercalate ['/'] nonEmpty)

/-- The `".gz"` suffix constant (`gzipSuffix` in src/unnamed/part_000). -/
def gzSuffix : List Char := ".gz".data

/-- Embedding of `archive.pathFromSha1HexEncoding`
(src/unnamed/part_000:145-156): pieces are the root, the four two-character
shards of `hexStr[0:8]` (the Go loop `for i := 0; i < 4` building
`prefix[2*i : 2*i+2]` is written as a map over `List.range 4`), and
`hexStr + suffix`, joined by `filepath.Join`.  The Go slice expression
`hexStr[0:8]` panics when the string is shorter than 8, embedded as
`none`. -/
def pathFromSha1HexEncoding (root hexStr suffix : List Char) :
    Option (List Char) :=
  if hexStr.length < 8 then none
  else
    let hexHead := hexStr.take 8
    let pieces :=
      [root] ++ (List.range 4).map (fun i => (hexHead.drop (2 * i)).take 2)
        ++ [hexStr ++ suffix]
    some (joinPath pieces)

/-- Outcome of the `os.Lstat` call inside `archive.pathExists`: success,
a not-exist error (`os.IsNotExist(err)` true), or any other error. -/
inductive StatOutcome where
  | statOk : StatOutcome
  | statNotExist : StatOutcome
  | statErr : GoErr → StatOutcome
deriving DecidableEq

/-- Embedding of `archive.pathExists` (src/unnamed/part_000:158-167). -/
def pathExists : StatOutcome → Bool × Option GoErr
  | StatOutcome.statOk => (true, none)
  | StatOutcome.statNotExist => (false, none)
  | StatOutcome.statErr e => (false, some e)

/-- The scan loop of `worker.commonRoot` (src/worker/worker.go:75-84):
advance `cursor` while both cleaned paths agree, remembering in `lastSep`
the last common index holding the separator (`none` embeds Go's `-1`). -/
def crScan (sa sb : List Char) (cursor : Nat) (lastSep : Option Nat) :
    Nat × Option Nat :=
  if ha : cursor < sa.length then
    if hb : cursor < sb.length then
      if sa[cursor] = sb[cursor] then
        crScan sa sb (cursor + 1)
          (if sa[cursor] = '/' then some cursor else lastSep)
      else (cursor, lastSep)
    else (cursor, lastSep)
  else (cursor, lastSep)
termination_by sa.length - cursor
decreasing_by simp_wf; omega

/-- The body of `worker.commonRoot` after the two `filepath.Clean` calls
(src/worker/worker.go:59-100), POSIX instantiation: `filepath.VolumeName`
is always `""`, so `va = vb = ""`, `sa`/`sb` are the cleaned paths `pac`,
`pbc` themselves, and the `va + string(Separator)` fallback as well as the
`res == ""` special case both produce `"/"`. -/
def commonRootCore (pac pbc : List Char) : List Char :=
  let r := crScan pac pbc 0 none
  if r.1 = pac.length ∧ pac.length = pbc.length then pac
  else
    match r.2 with
    | none => ['/']
    | some ls =>
      let res := pac.take ls
      if res = [] then ['/'] else res

/-- Embedding of `worker.commonRoot` (src/worker/worker.go:51-101):
empty arguments short-circuit to `""`, otherwise both paths are cleaned
and the scan-and-cut body runs on the cleaned paths. -/
def commonRoot (pa pb : List Char) : List Char :=
  if pa = [] ∨ pb = [] then []
  else commonRootCore (clean pa) (clean pb)

/-- The invariant Go's `lastSep` variable maintains over `sa`:
`none` (Go `-1`) means no separator among the first `c` common positions,
`some ls` means `ls` is the last index `< c` holding `'/'`. -/
def lastSepInv (sa : List Char) (c : Nat) : Option Nat → Prop
  | none => ∀ j, j < c → sa[j]? ≠ some '/'
  | some ls => ls < c ∧ sa[ls]? = some '/' ∧
      ∀ j, ls < j → j < c → sa[j]? ≠ some '/'

/-! ## The worker pool (`worker.Work`)

A directory walk is embedded as the list of calls `filepath.Walk` makes to
the visitor: each `WalkEvent` carries the visited path, the `os.FileInfo`
(absent on a traversal error) and the traversal error the walk reports. -/

/-- One callback of `filepath.Walk` to a visitor. -/
structure WalkEvent where
  path : List Char
  info : Option FileInfo
  err : Option GoErr
deriving DecidableEq

/-- The accumulator of `worker.countVisitor` (src/worker/worker.go:44-49). -/
structure CountState where
  numBytes : Int
  numFiles : Nat
  commonRootPath : List Char
deriving DecidableEq

/-- The literal `".DS_Store"`. -/
def dsStore : List Char := ".DS_Store".data

/-- Embedding of `countVisitor.visit` (src/worker/worker.go:103-117),
with `master.Accept` abstracted as `accept`.  Note that the `err`
parameter is never read by the source, and a `nil` `FileInfo` (the walk
reporting a traversal error) makes the visitor return `nil`. -/
def countVisit (accept : List Char → Bool) (cv : CountState)
    (path : List Char) (f : Option FileInfo) (err : Option GoErr) :
    CountState × Option GoErr :=
  match f with
  | none => (cv, none)
  | some fi =>
    if fi.name = dsStore then (cv, none)
    else if !fi.isDir && accept path then
      ({ numBytes := cv.numBytes + fi.size
         numFiles := cv.numFiles + 1
         commonRootPath :=
           if cv.commonRootPath = [] then path
           else commonRoot cv.commonRootPath path }, none)
    else (cv, none)

/-- `filepath.Walk`'s visitor loop: fold the visitor over the walk events,
stopping at (and returning) the first error the visitor itself returns. -/
def walkFold {σ : Type} (visit : σ → WalkEvent → σ × Option GoErr) :
    σ → List WalkEvent → σ × Option GoErr
  | s, [] => (s, none)
  | s, e :: rest =>
    match visit s e with
    | (s', none) => walkFold visit s' rest
    | (s', some err) => (s', some err)

/-- The counting pass of `worker.Work` (src/worker/worker.go:214-222):
walk each root in turn with the counting visitor, returning the first
error a walk returns.  `fsWalk` gives each root's walk events. -/
def countingPass (accept : List Char → Bool)
    (fsWalk : List Char → List WalkEvent) :
    CountState → List (List Char) → CountState × Option GoErr
  | cv, [] => (cv, none)
  | cv, root :: rest =>
    match walkFold (fun s e => countVisit accept s e.path e.info e.err) cv
        (fsWalk root) with
    | (cv', none) => countingPass accept fsWalk cv' rest
    | (cv', some e) => (cv', some e)

/-- One unit of work pushed on the `inwork` channel. -/
structure WorkUnit where
  path : List Char
  size : Int
deriving DecidableEq

/-- What one slave produces: its exit error (sent on `closeC`) and the
sizes it passed to `pt.AddBytesFromFile`, in call order. -/
structure SlaveOut where
  perr : Option GoErr
  added : List Int
deriving DecidableEq

/-- The loop of `worker.runSlave` (src/worker/worker.go:163-187): for each
unit, call `worker.Process` (abstracted as the oracle `process`), remember
the first non-nil error in `perr`, and always call `AddBytesFromFile`. -/
def runSlaveLoop (process : List Char → Int → Option GoErr) :
    Option GoErr → List Int → List WorkUnit → SlaveOut
  | perr, added, [] => ⟨perr, added⟩
  | perr, added, wu :: rest =>
    let e := process wu.path wu.size
    let perr' := match perr with
      | some a => some a
      | none => e
    runSlaveLoop process perr' (added ++ [wu.size]) rest

/-- `runSlave` on the units one slave receives from the channel. -/
def runSlave (process : List Char → Int → Option GoErr)
    (items : List WorkUnit) : SlaveOut :=
  runSlaveLoop process none [] items

/-- First non-`none` entry of a list of optional values. -/
def firstSome {α : Type} : List (Option α) → Option α
  | [] => none
  | some a :: _ => some a
  | none :: rest => firstSome rest

/-- The collection loop of `worker.Work` (src/worker/worker.go:271-280):
receive each worker's exit error from `closeC` and keep the first
non-nil one. -/
def workCollect (errs : List (Option GoErr)) : Option GoErr :=
  errs.foldl
    (fun perr e => match perr with
      | some a => some a
      | none => e)
    none

/-- The tail of `worker.Work` (src/worker/worker.go:282-302): a failing
`master.FinishUp` takes precedence; otherwise the collected worker error
is returned. -/
def workFinish (arrivals : List (Option GoErr)) (finishErr : Option GoErr) :
    Option GoErr :=
  match finishErr with
  | some e => some e
  | none => workCollect arrivals

/-! ## DAT refresh (`db.refreshWorker`) -/

/-- `db.MaxBatchSize` (src/db/db.go:52). -/
def MaxBatchSize : Int := 10485760

/-- Oracle for the `RomBatch` collaborator as `refreshWorker.Process`
consumes it in one call: the batch size at entry and the results of
`Flush` and `IndexDat`. -/
structure BatchOracle where
  size : Int
  flushErr : Option GoErr
  indexDatErr : Option GoErr
deriving DecidableEq

/-- The observable calls `refreshWorker.Process` makes, in order. -/
inductive RAction where
  | flush : RAction
  | parseFile : List Char → RAction
  | indexDat : Dat → List Nat → RAction
deriving DecidableEq

/-- Embedding of `refreshWorker.Process` (src/db/db.go:172-185): flush the
batch when `Size() >= MaxBatchSize` (wrapping a flush failure), then call
`parser.Parse` and `IndexDat`.  Returns the trace of collaborator calls
and the returned error. -/
def refreshProcess (b : BatchOracle)
    (parse : List Char → Except GoErr (Dat × List Nat)) (path : List Char) :
    List RAction × Option GoErr :=
  if MaxBatchSize ≤ b.size then
    match b.flushErr with
    | some e => ([RAction.flush], some (GoErr.flushFail e))
    | none =>
      match parse path with
      | Except.error e => ([RAction.flush, RAction.parseFile path], some e)
      | Except.ok (dat, sha1Bytes) =>
          ([RAction.flush, RAction.parseFile path,
            RAction.indexDat dat sha1Bytes], b.indexDatErr)
  else
    match parse path with
    | Except.error e => ([RAction.parseFile path], some e)
    | Except.ok (dat, sha1Bytes) =>
        ([RAction.parseFile path, RAction.indexDat dat sha1Bytes],
          b.indexDatErr)

/-! ## The generation file (`db.ReadGenerationFile`)

The filesystem is modelled by the one file the functions touch:
`Option (List Char)` is the contents of `<root>/romba-generation`, absent
when the file does not exist. -/

deriving instance DecidableEq for Except

/-- Decimal digit value of a character, `none` for a non-digit. -/
def digitVal (c : Char) : Option Nat :=
  if '0' ≤ c ∧ c ≤ '9' then some (c.toNat - '0'.toNat) else none

/-- Accumulate decimal digits; `none` on the first non-digit. -/
def parseDigitsAux : Nat → List Char → Option Nat
  | acc, [] => some acc
  | acc, c :: rest =>
    match digitVal c with
    | none => none
    | some d => parseDigitsAux (acc * 10 + d) rest

/-- Parse a non-empty all-digit string. -/
def parseDigits : List Char → Option Nat
  | [] => none
  | l => parseDigitsAux 0 l

/-- Modelled from the Go standard library `strconv.ParseInt(s, 10, 64)`
(an external collaborator): optional sign, decimal digits, error on an
empty or malformed string and on values outside the `int64` range. -/
def parseInt64 (s : List Char) : Except Unit Int :=
  let signAndDigits : Bool × List Char :=
    match s with
    | '-' :: rest => (true, rest)
    | '+' :: rest => (false, rest)
    | rest => (false, rest)
  match parseDigits signAndDigits.2 with
  | none => Except.error ()
  | some n =>
    if signAndDigits.1 then
      if (n : Int) ≤ 2 ^ 63 then Except.ok (-(n : Int)) else Except.error ()
    else
      if (n : Int) ≤ 2 ^ 63 - 1 then Except.ok (n : Int) else Except.error ()

/-- Modelled from the Go standard library `strconv.FormatInt(n, 10)`. -/
def formatInt (n : Int) : List Char := (toString n).data

/-- Embedding of `db.WriteGenerationFile` (src/db/db.go:132-144): the new
contents of the generation file (file creation modelled as succeeding). -/
def WriteGenerationFileM (size : Int) : Option (List Char) :=
  some (formatInt size)

/-- Embedding of `db.ReadGenerationFile` (src/db/db.go:146-166): when the
file is absent, write `0` and return `0`; otherwise parse the contents.
Returns the generation file's contents after the call and the result. -/
def ReadGenerationFileM (genFile : Option (List Char)) :
    Option (List Char) × Except Unit Int :=
  match genFile with
  | none => (WriteGenerationFileM 0, Except.ok 0)
  | some contents => (some contents, parseInt64 contents)

/-! ## Path rewriting at the start of `worker.Work` -/

/-- Modelled from the Go standard library `path/filepath.Abs` (POSIX):
an absolute path is cleaned, a relative one is joined onto the working
directory (`Getwd` modelled as succeeding with `cwd`). -/
def goAbs (cwd p : List Char) : List Char :=
  if isAbsPath p then clean p else joinPath [cwd, p]

/-- Embedding of the loop at src/worker/worker.go:204-212: each relative
entry of `paths` is replaced in place by its absolute form, absolute
entries are left as they are; the returned list is the slice's contents
after the loop, which the two subsequent walk loops (lines 214 and 250)
iterate over. -/
def updatePathsLoop (cwd : List Char) : List (List Char) → List (List Char)
  | [] => []
  | name :: rest =>
    (if isAbsPath name then name else goAbs cwd name) ::
      updatePathsLoop cwd rest

end Romba

namespace Romba

lemma updScanF_mono (value old : List Nat) :
    ∀ fuel fuel' i r, fuel ≤ fuel' →
      updScanF fuel value old i = some r → updScanF fuel' value old i = some r := by
  intro fuel
  induction fuel with
  | zero =>
    intro fuel' i r _ h
    simp [updScanF] at h
  | succ n ih =>
    intro fuel' i r hle h
    obtain ⟨m, rfl⟩ : ∃ m, fuel' = m + 1 := ⟨fuel' - 1, by omega⟩
    rw [updScanF] at h ⊢
    by_cases h1 : i < old.length
    · rw [if_pos h1] at h ⊢
      by_cases h2 : i + value.length ≤ old.length
      · rw [if_pos h2] at h ⊢
        by_cases h3 : (old.drop i).take value.length = value
        · rw [if_pos h3] at h ⊢; exact h
        · rw [if_neg h3] at h ⊢
          exact ih m (i + value.length) r (by omega) h
      · rw [if_neg h2] at h ⊢; exact h
    · rw [if_neg h1] at h ⊢; exact h

lemma updScanF_steps (value : List Nat) (hv : 0 < value.length) :
    ∀ (k : Nat) (old : List Nat) (i : Nat), old.length = i + k * value.length →
      updScanF (k + 1) value old i =
        some (if strideFrom value old i k = true then ScanOutcome.hit
              else ScanOutcome.miss) := by
  intro k
  induction k with
  | zero =>
    intro old i hlen
    have h1 : ¬ i < old.length := by omega
    simp [updScanF, h1, strideFrom]
  | succ n ih =>
    intro old i hlen
    have hlen' : old.length = i + value.length + n * value.length := by
      rw [hlen, Nat.succ_mul]; omega
    have h1 : i < old.length := by
      have := Nat.succ_mul n value.length
      omega
    have h2 : i + value.length ≤ old.length := by omega
    rw [updScanF]
    rw [if_pos h1, if_pos h2]
    by_cases heq : (old.drop i).take value.length = value
    · rw [if_pos heq]
      have hf : strideFrom value old i (n + 1) = true := by
        simp only [strideFrom, List.any_eq_true, List.mem_range, decide_eq_true_eq]
        exact ⟨0, Nat.succ_pos n, by simpa using heq⟩
      simp [hf]
    · rw [if_neg heq]
      rw [ih old (i + value.length) hlen']
      have harith : ∀ m : Nat,
          i + (m + 1) * value.length = i + value.length + m * value.length := by
        intro m; rw [Nat.succ_mul]; omega
      have hshift : strideFrom value old i (n + 1) =
          strideFrom value old (i + value.length) n := by
        rw [Bool.eq_iff_iff]
        simp only [strideFrom, List.any_eq_true, List.mem_range, decide_eq_true_eq]
        constructor
        · rintro ⟨m, hm, he⟩
          cases m with
          | zero => exact absurd (by simpa using he) heq
          | succ m' => exact ⟨m', by omega, by rwa [harith m'] at he⟩
        · rintro ⟨m, hm, he⟩
          exact ⟨m + 1, by omega, by rwa [harith m]⟩
      rw [hshift]

lemma strideMem_eq_strideFrom (value old : List Nat) (k : Nat)
    (hv : 0 < value.length) (hlen : old.length = k * value.length) :
    strideMem value old = strideFrom value old 0 k := by
  rw [Bool.eq_iff_iff]
  simp only [strideMem, strideFrom, List.any_eq_true, List.mem_range,
    Bool.and_eq_true, decide_eq_true_eq]
  constructor
  · rintro ⟨m, _, hlt, heq⟩
    have hmk : m < k := by
      by_contra hmk
      have : k * value.length ≤ m * value.length :=
        Nat.mul_le_mul_right _ (by omega)
      omega
    exact ⟨m, hmk, by simpa using heq⟩
  · rintro ⟨m, hmk, heq⟩
    have hlt : m * value.length < k * value.length :=
      (Nat.mul_lt_mul_right hv).mpr hmk
    have hkl : k ≤ k * value.length := Nat.le_mul_of_pos_right k hv
    exact ⟨m, by omega, by omega, by simpa using heq⟩

lemma updScanF_full (value o : List Nat) (k : Nat) (hv : 0 < value.length)
    (hlen : o.length = k * value.length) :
    updScanF (o.length + 1) value o 0 =
      some (if strideFrom value o 0 k = true then ScanOutcome.hit
            else ScanOutcome.miss) := by
  have hscan := updScanF_steps value hv k o 0 (by simpa using hlen)
  have hk : k ≤ o.length := by
    have := Nat.le_mul_of_pos_right k hv
    omega
  exact updScanF_mono value o (k + 1) (o.length + 1) 0 _ (by omega) hscan

/-- **C1**: `Upd(key, newItem, existing)` — when `existing` is absent the
result is `newItem` with `changed = true`; when `existing` is a
concatenation of items of width `|newItem|` (its length is a multiple of
`|newItem|`), a stride equal to `newItem` makes `Upd` report no change
(`nil` value, `changed = false`, so the caller skips the write), and
otherwise the result is `existing ++ newItem` with `changed = true`. -/
theorem upd_merge_spec (value o : List Nat) (k : Nat)
    (hlen : o.length = k * value.length) :
    Upd value none = some (some value, true)
    ∧ (strideMem value o = true → Upd value (some o) = some (none, false))
    ∧ (strideMem value o = false →
        Upd value (some o) = some (some (o ++ value), true)) := by
  by_cases hv : value.length = 0
  · have hval : value = [] := List.length_eq_zero.mp hv
    have ho : o = [] := by
      have h0 : o.length = 0 := by rw [hlen, hv, Nat.mul_zero]
      exact List.length_eq_zero.mp h0
    subst hval; subst ho
    refine ⟨rfl, ?_, fun _ => by decide⟩
    intro hs
    simp [strideMem] at hs
  · have hv' : 0 < value.length := Nat.pos_of_ne_zero hv
    have hfull := updScanF_full value o k hv' hlen
    have hsm := strideMem_eq_strideFrom value o k hv' hlen
    refine ⟨rfl, ?_, ?_⟩
    · intro hs
      have hsf : strideFrom value o 0 k = true := by rw [← hsm]; exact hs
      simp [Upd, hfull, hsf]
    · intro hs
      have hsf : strideFrom value o 0 k = false := by rw [← hsm]; exact hs
      simp [Upd, hfull, hsf]

/-- Witness for C1: with `existing = [3,4] ++ [1,2]` and
`newItem = [1,2]`, a stride matches and `Upd` reports no change. -/
theorem upd_merge_spec_witness :
    Upd [1, 2] (some [3, 4, 1, 2]) = some (none, false) :=
  (upd_merge_spec [1, 2] [3, 4, 1, 2] 2 (by decide)).2.1 (by decide)

/-- Counterexample to C9 as stated: the claim says `Upd` is total *only*
under `0 < |value|` and `|value| ∣ |old|`, and that with `|value| = 0` and
a non-empty non-matching `old` the scan diverges.  But with `value = []`
and `old = [5]` the precondition fails while `Upd` still terminates: the
first stride `old[0:0]` is empty and equals `value`, so there is no
"non-matching" case at width 0 and the loop breaks at once. -/
theorem upd_totality_cex :
    (Upd [] (some [5])).isSome = true ∧ ¬ 0 < ([] : List Nat).length := by
  decide

/-- **C9 (amended)**: when `|old|` is a multiple of `|value|` every stride
slice is in bounds and `Upd` is total; when `|value| = 0` the scan also
terminates for every `old` (the first empty stride matches immediately);
and when `|old|` is not a multiple of `|value|` the final stride can run
past the end of `old` — at `value = [9,9]`, `old = [1,2,3]` the slice
`old[2:4]` is out of range and `Upd` panics. -/
theorem upd_safety :
    (∀ (value o : List Nat) (k : Nat), o.length = k * value.length →
        (Upd value (some o)).isSome = true)
    ∧ (∀ (value o : List Nat), value.length = 0 →
        (Upd value (some o)).isSome = true)
    ∧ Upd [9, 9] (some [1, 2, 3]) = none := by
  refine ⟨?_, ?_, by decide⟩
  · intro value o k hlen
    by_cases hv : value.length = 0
    · have hval : value = [] := List.length_eq_zero.mp hv
      have ho : o = [] := by
        have h0 : o.length = 0 := by rw [hlen, hv, Nat.mul_zero]
        exact List.length_eq_zero.mp h0
      subst hval; subst ho; decide
    · have hv' : 0 < value.length := Nat.pos_of_ne_zero hv
      have hfull := updScanF_full value o k hv' hlen
      by_cases hsf : strideFrom value o 0 k = true
      · simp [Upd, hfull, hsf]
      · simp [Upd, hfull, hsf]
  · intro value o hval0
    have hval : value = [] := List.length_eq_zero.mp hval0
    subst hval
    cases o with
    | nil => decide
    | cons c t => simp [Upd, updScanF]

/-- Witness for C9 (amended): the first conjunct applied at
`value = [1]`, `old = [1, 1]`. -/
theorem upd_safety_witness : (Upd [1] (some [1, 1])).isSome = true :=
  upd_safety.1 [1] [1, 1] 2 (by decide)

/-- **C8**: `pathExists` returns `(true, nil)` when the stat succeeds,
`(false, nil)` when the stat reports the path as not existing, and
`(false, err)` for every other stat error; non-existence is never
reported as an error. -/
theorem pathExists_spec :
    pathExists StatOutcome.statOk = (true, none)
    ∧ pathExists StatOutcome.statNotExist = (false, none)
    ∧ ∀ e, pathExists (StatOutcome.statErr e) = (false, some e) :=
  ⟨rfl, rfl, fun _ => rfl⟩

/-- **C7**: when `romba-generation` is absent, `ReadGenerationFile`
creates it with contents `"0"` (a single ASCII digit, no trailing
newline) and returns `0`; when it is present, the call returns the
integer its ASCII decimal contents parse to. -/
theorem readGeneration_spec :
    ReadGenerationFileM none = (some ['0'], Except.ok 0)
    ∧ ∀ (contents : List Char) (n : Int), parseInt64 contents = Except.ok n →
        ReadGenerationFileM (some contents) = (some contents, Except.ok n) := by
  refine ⟨by decide, ?_⟩
  intro contents n hp
  simp [ReadGenerationFileM, hp]

/-- Witness for C7: a present file with contents `"42"` parses to `42`. -/
theorem readGeneration_spec_witness :
    ReadGenerationFileM (some "42".data) =
      (some "42".data, Except.ok 42) :=
  readGeneration_spec.2 "42".data 42 (by decide)

/-- Counterexample to C6 as stated: the claim says a batch whose size is
exactly `MaxBatchSize` is *not* flushed, but the source tests
`Size() >= MaxBatchSize`, so at exactly `10485760` the flush happens. -/
theorem refresh_flush_at_cap_cex :
    RAction.flush ∈
      (refreshProcess ⟨10485760, none, none⟩
        (fun _ => Except.ok (⟨1⟩, [2])) "x".data).1 := by
  decide

/-- **C6 (amended)**: `refreshWorker.Process` flushes exactly when the
batch size at entry is `≥ MaxBatchSize` (not strictly greater); any flush
precedes the parser invocation, which precedes `IndexDat` with the parsed
dat and sha1; a flush failure returns the wrapped error without invoking
the parser. -/
theorem refresh_flush_threshold (b : BatchOracle)
    (parse : List Char → Except GoErr (Dat × List Nat)) (path : List Char) :
    (RAction.flush ∈ (refreshProcess b parse path).1 ↔ MaxBatchSize ≤ b.size)
    ∧ (b.flushErr = none →
        refreshProcess b parse path =
          ((if MaxBatchSize ≤ b.size then [RAction.flush] else []) ++
            (match parse path with
             | Except.error _ => [RAction.parseFile path]
             | Except.ok (d, s) =>
                 [RAction.parseFile path, RAction.indexDat d s]),
           match parse path with
           | Except.error e => some e
           | Except.ok _ => b.indexDatErr))
    ∧ (∀ e, b.flushErr = some e → MaxBatchSize ≤ b.size →
        refreshProcess b parse path =
          ([RAction.flush], some (GoErr.flushFail e))) := by
  refine ⟨?_, ?_, ?_⟩
  · unfold refreshProcess
    by_cases hsz : MaxBatchSize ≤ b.size
    · simp only [if_pos hsz]
      cases b.flushErr with
      | none =>
        cases hp : parse path with
        | error e => simp [hsz]
        | ok ds => cases ds with
          | mk d s => simp [hsz]
      | some e => simp [hsz]
    · simp only [if_neg hsz]
      cases hp : parse path with
      | error e => simp [hsz]
      | ok ds => cases ds with
        | mk d s => simp [hsz]
  · intro hfe
    unfold refreshProcess
    rw [hfe]
    by_cases hsz : MaxBatchSize ≤ b.size
    · simp only [if_pos hsz]
      cases hp : parse path with
      | error e => simp
      | ok ds => cases ds with
        | mk d s => simp
    · simp only [if_neg hsz]
      cases hp : parse path with
      | error e => simp
      | ok ds => cases ds with
        | mk d s => simp
  · intro e hfe hsz
    unfold refreshProcess
    rw [if_pos hsz, hfe]

/-- Witness for C6 (amended): at size exactly `MaxBatchSize` with a
successful flush and parse, the trace is flush, parse, `IndexDat`. -/
theorem refresh_flush_threshold_witness :
    refreshProcess ⟨10485760, none, none⟩
        (fun _ => Except.ok (⟨1⟩, [2])) "x".data =
      ([RAction.flush, RAction.parseFile "x".data,
        RAction.indexDat ⟨1⟩ [2]], none) :=
  ((refresh_flush_threshold ⟨10485760, none, none⟩
      (fun _ => Except.ok (⟨1⟩, [2])) "x".data).2.1 rfl).trans (by decide)

lemma workCollect_eq_firstSome (errs : List (Option GoErr)) :
    workCollect errs = firstSome errs := by
  have hsome : ∀ (l : List (Option GoErr)) (a : GoErr),
      l.foldl
        (fun perr e => match perr with
          | some a' => some a'
          | none => e)
        (some a) = some a := by
    intro l
    induction l with
    | nil => intro a; rfl
    | cons x xs ih => intro a; simpa using ih a
  induction errs with
  | nil => rfl
  | cons x xs ih =>
    cases x with
    | none => simpa [workCollect, firstSome] using ih
    | some a => simp [workCollect, firstSome, hsome]

lemma firstSome_eq_none_iff {α : Type} (l : List (Option α)) :
    firstSome l = none ↔ ∀ x ∈ l, x = none := by
  induction l with
  | nil => simp [firstSome]
  | cons x xs ih =>
    cases x with
    | none => simp [firstSome, ih]
    | some a => simp [firstSome]

lemma runSlaveLoop_spec (process : List Char → Int → Option GoErr) :
    ∀ (items : List WorkUnit) (perr : Option GoErr) (added : List Int),
      runSlaveLoop process perr added items =
        ⟨match perr with
          | some a => some a
          | none => firstSome (items.map fun wu => process wu.path wu.size),
         added ++ items.map fun wu => wu.size⟩ := by
  intro items
  induction items with
  | nil =>
    intro perr added
    cases perr <;> simp [runSlaveLoop, firstSome]
  | cons wu rest ih =>
    intro perr added
    simp only [runSlaveLoop]
    cases perr with
    | some a =>
      rw [ih]
      simp
    | none =>
      cases he : process wu.path wu.size with
      | none =>
        rw [ih]
        simp [firstSome, he]
      | some b =>
        rw [ih]
        simp [firstSome, he]

/-- **C2**: modelling the dispatch nondeterminism by an arbitrary split of
the dispatched items among the workers (`partition`) and an arbitrary
arrival order of the worker exit messages (`arr`, a permutation of the
workers' results): each worker's exit error is the first non-nil error of
its `Process` calls; with `FinishUp` succeeding, `Work` returns the first
exit error it receives; every worker calls `AddBytesFromFile` with the
size of every item it processed, failing items included; and if any
`Process` call failed, `Work` returns a non-nil error. -/
theorem work_first_error (process : List Char → Int → Option GoErr)
    (partition : List (List WorkUnit)) (arr : List SlaveOut)
    (finishErr : Option GoErr)
    (hperm : arr.Perm (partition.map (runSlave process)))
    (hfin : finishErr = none) :
    workFinish (arr.map (fun s => s.perr)) finishErr
      = firstSome (arr.map (fun s => s.perr))
    ∧ (∀ ws ∈ partition, (runSlave process ws).perr
        = firstSome (ws.map fun wu => process wu.path wu.size))
    ∧ (∀ ws ∈ partition, (runSlave process ws).added
        = ws.map fun wu => wu.size)
    ∧ ((∃ wu ∈ partition.join, process wu.path wu.size ≠ none) →
        workFinish (arr.map (fun s => s.perr)) finishErr ≠ none) := by
  subst hfin
  have hws : ∀ ws : List WorkUnit, runSlave process ws =
      ⟨firstSome (ws.map fun wu => process wu.path wu.size),
       ws.map fun wu => wu.size⟩ := by
    intro ws
    simpa [runSlave] using runSlaveLoop_spec process ws none []
  refine ⟨?_, ?_, ?_, ?_⟩
  · simp [workFinish, workCollect_eq_firstSome]
  · intro ws _
    rw [hws ws]
  · intro ws _
    rw [hws ws]
  · rintro ⟨wu, hwu, hne⟩
    rcases List.mem_join.mp hwu with ⟨ws, hwsmem, hwuin⟩
    have hperr : (runSlave process ws).perr ≠ none := by
      rw [hws ws]
      intro h0
      rw [firstSome_eq_none_iff] at h0
      exact hne (h0 _ (List.mem_map_of_mem _ hwuin))
    have hmem : runSlave process ws ∈ arr :=
      hperm.mem_iff.mpr (List.mem_map_of_mem _ hwsmem)
    intro hall
    simp only [workFinish, workCollect_eq_firstSome] at hall
    rw [firstSome_eq_none_iff] at hall
    exact hperr (hall _ (List.mem_map_of_mem _ hmem))

/-- Witness for C2: two workers, the first fed `a` (ok) then `bad`
(`Process` fails), the second fed `c` (ok); exit messages arrive in
reverse order; `Work` returns the failing worker's first error. -/
theorem work_first_error_witness :
    workFinish
        ((([[⟨"a".data, 2⟩, ⟨"bad".data, 3⟩], [⟨"c".data, 4⟩]].map
            (runSlave fun p _ =>
              if p = "bad".data then some (GoErr.code 1) else none)).reverse).map
          (fun s => s.perr)) none
      = some (GoErr.code 1) :=
  ((work_first_error
      (fun p _ => if p = "bad".data then some (GoErr.code 1) else none)
      [[⟨"a".data, 2⟩, ⟨"bad".data, 3⟩], [⟨"c".data, 4⟩]]
      (([[⟨"a".data, 2⟩, ⟨"bad".data, 3⟩], [⟨"c".data, 4⟩]].map
          (runSlave fun p _ =>
            if p = "bad".data then some (GoErr.code 1) else none)).reverse)
      none (List.reverse_perm _) rfl).1).trans (by decide)

lemma countVisit_no_err (accept : List Char → Bool) (cv : CountState)
    (path : List Char) (f : Option FileInfo) (err : Option GoErr) :
    (countVisit accept cv path f err).2 = none := by
  cases f with
  | none => rfl
  | some fi =>
    simp only [countVisit]
    split
    · rfl
    · split
      · rfl
      · rfl

lemma walkFold_count_no_err (accept : List Char → Bool) :
    ∀ (events : List WalkEvent) (cv : CountState),
      (walkFold (fun s e => countVisit accept s e.path e.info e.err) cv
        events).2 = none := by
  intro events
  induction events with
  | nil => intro cv; rfl
  | cons e rest ih =>
    intro cv
    simp only [walkFold]
    rcases hsplit : countVisit accept cv e.path e.info e.err with ⟨s', oe⟩
    have h2 : oe = none := by
      have h := countVisit_no_err accept cv e.path e.info e.err
      rw [hsplit] at h
      exact h
    subst h2
    exact ih s'

/-- Counterexample to C3 as stated: a traversal error (the visitor called
with a `nil` `FileInfo` and a non-nil error) is *not* propagated — the
counting pass returns no error, and the walk continues: the regular file
after the error event is still counted. -/
theorem counting_error_dropped_cex :
    (countingPass (fun _ => true)
        (fun _ => [⟨"/r".data, none, some (GoErr.code 7)⟩,
                   ⟨"/r/a".data, some ⟨"a".data, 5, false⟩, none⟩])
        ⟨0, 0, []⟩ ["/r".data]).2 = none
    ∧ (countingPass (fun _ => true)
        (fun _ => [⟨"/r".data, none, some (GoErr.code 7)⟩,
                   ⟨"/r/a".data, some ⟨"a".data, 5, false⟩, none⟩])
        ⟨0, 0, []⟩ ["/r".data]).1.numFiles = 1 :=
  ⟨rfl, rfl⟩

/-- **C3 (amended)**: `countVisitor.visit` never returns an error — a
traversal error reported to it (nil `FileInfo`) is ignored and the walk
continues — so the counting pass of `Work` never returns a directory
traversal error. -/
theorem counting_ignores_walk_errors (accept : List Char → Bool)
    (fsWalk : List Char → List WalkEvent) :
    ∀ (roots : List (List Char)) (cv : CountState),
      (countingPass accept fsWalk cv roots).2 = none := by
  intro roots
  induction roots with
  | nil => intro cv; rfl
  | cons root rest ih =>
    intro cv
    simp only [countingPass]
    rcases hsplit : walkFold
        (fun s e => countVisit accept s e.path e.info e.err) cv
        (fsWalk root) with ⟨cv', oe⟩
    have h2 : oe = none := by
      have h := walkFold_count_no_err accept (fsWalk root) cv
      rw [hsplit] at h
      exact h
    subst h2
    exact ih cv'

lemma updatePathsLoop_eq_map (cwd : List Char) :
    ∀ paths, updatePathsLoop cwd paths =
      paths.map fun name => if isAbsPath name then name else goAbs cwd name := by
  intro paths
  induction paths with
  | nil => rfl
  | cons n rest ih => simp [updatePathsLoop, ih]

lemma isAbsPath_clean (p : List Char) (hp : isAbsPath p = true) :
    isAbsPath (clean p) = true := by
  have hne : p ≠ [] := by
    intro h
    subst h
    simp [isAbsPath] at hp
  simp only [clean, if_neg hne, hp, if_pos]
  simp [isAbsPath]

lemma intercalate_cons_head (sep a : List Char) (l : List (List Char)) :
    ∃ t, List.intercalate sep (a :: l) = a ++ t := by
  cases l with
  | nil => exact ⟨[], by simp [List.intercalate, List.intersperse]⟩
  | cons b bs =>
    refine ⟨sep ++ (List.intersperse sep (b :: bs)).join, ?_⟩
    simp [List.intercalate, List.intersperse]

lemma isAbsPath_joinPath_cons (cwd p : List Char)
    (hcwd : isAbsPath cwd = true) :
    isAbsPath (joinPath [cwd, p]) = true := by
  have hne : cwd ≠ [] := by
    intro h
    subst h
    simp [isAbsPath] at hcwd
  have hcwdE : cwd.isEmpty = false := by
    cases cwd with
    | nil => exact absurd rfl hne
    | cons c cs => rfl
  by_cases hp : p = []
  · subst hp
    have h1 : joinPath [cwd, []] = clean (List.intercalate ['/'] [cwd]) := by
      simp [joinPath, hcwdE]
    have h2 : List.intercalate ['/'] [cwd] = cwd := by
      simp [List.intercalate, List.intersperse]
    rw [h1, h2]
    exact isAbsPath_clean cwd hcwd
  · have hpE : p.isEmpty = false := by
      cases p with
      | nil => exact absurd rfl hp
      | cons c cs => rfl
    have h1 : joinPath [cwd, p] = clean (List.intercalate ['/'] [cwd, p]) := by
      simp [joinPath, hcwdE, hpE]
    obtain ⟨t, ht⟩ := intercalate_cons_head ['/'] cwd [p]
    rw [h1, ht]
    apply isAbsPath_clean
    cases cwd with
    | nil => exact absurd rfl hne
    | cons c cs =>
      have hc : c = '/' := by simpa [isAbsPath] using hcwd
      subst hc
      simp [isAbsPath]

lemma isAbsPath_goAbs (cwd p : List Char) (hcwd : isAbsPath cwd = true) :
    isAbsPath (goAbs cwd p) = true := by
  unfold goAbs
  by_cases hp : isAbsPath p = true
  · rw [if_pos hp]
    exact isAbsPath_clean p hp
  · rw [if_neg hp]
    exact isAbsPath_joinPath_cons cwd p hcwd

/-- **C10**: the loop at the top of `Work` rewrites the caller's `paths`
slice in place: entries that are already absolute are left unchanged,
relative entries are replaced by their absolute form (which is absolute
when the working directory is), and the rewritten slice is what the
subsequent walks iterate over (see `updatePathsLoop`'s doc). -/
theorem work_paths_rewrite (cwd : List Char) (paths : List (List Char))
    (hcwd : isAbsPath cwd = true) :
    (updatePathsLoop cwd paths).length = paths.length
    ∧ (∀ (i : Nat) (h : i < paths.length), isAbsPath paths[i] = true →
        (updatePathsLoop cwd paths)[i]? = some paths[i])
    ∧ (∀ (i : Nat) (h : i < paths.length), isAbsPath paths[i] = false →
        (updatePathsLoop cwd paths)[i]? = some (goAbs cwd paths[i]))
    ∧ (∀ q ∈ updatePathsLoop cwd paths, isAbsPath q = true) := by
  rw [updatePathsLoop_eq_map]
  refine ⟨by simp, ?_, ?_, ?_⟩
  · intro i h habs
    rw [List.getElem?_map]
    simp [List.getElem?_eq_getElem h, habs]
  · intro i h hrel
    rw [List.getElem?_map]
    simp [List.getElem?_eq_getElem h, hrel]
  · intro q hq
    rcases List.mem_map.mp hq with ⟨name, hmem, rfl⟩
    by_cases habs : isAbsPath name = true
    · simp [habs]
    · have hrel : isAbsPath name = false := by simpa using habs
      simp [hrel, isAbsPath_goAbs cwd name hcwd]

/-- Witness for C10: with `cwd = "/w"`, the already-absolute entry
`"/abs"` is kept unchanged at its index. -/
theorem work_paths_rewrite_witness :
    (updatePathsLoop "/w".data ["rel".data, "/abs".data])[1]?
      = some "/abs".data :=
  (work_paths_rewrite "/w".data ["rel".data, "/abs".data]
      (by decide)).2.1 1 (by decide) (by decide)

/-- **C4**: for a 40-character SHA-1 hex string `h`, the storage path for
`root` and suffix `".gz"` is `root` joined with the four two-character
shards `h[0:2]`, `h[2:4]`, `h[4:6]`, `h[6:8]` and `h ++ ".gz"`. -/
theorem depot_path_sharding (root h : List Char) (hlen : h.length = 40) :
    pathFromSha1HexEncoding root h gzSuffix =
      some (joinPath [root, h.take 2, (h.drop 2).take 2, (h.drop 4).take 2,
        (h.drop 6).take 2, h ++ gzSuffix]) := by
  have h8 : ¬ h.length < 8 := by omega
  have e0 : ((h.take 8).drop 0).take 2 = h.take 2 := by
    rw [List.drop_take, List.take_take]
    norm_num
  have e1 : ((h.take 8).drop 2).take 2 = (h.drop 2).take 2 := by
    rw [List.drop_take, List.take_take]
    norm_num
  have e2 : ((h.take 8).drop 4).take 2 = (h.drop 4).take 2 := by
    rw [List.drop_take, List.take_take]
    norm_num
  have e3 : ((h.take 8).drop 6).take 2 = (h.drop 6).take 2 := by
    rw [List.drop_take, List.take_take]
    norm_num
  have e4 : (h.take 8).take 2 = h.take 2 := by
    rw [List.take_take]
    norm_num
  simp only [pathFromSha1HexEncoding, if_neg h8]
  congr 2
  simp [List.range_succ, e0, e1, e2, e3, e4]

/-- Witness for C4: for `h = "f572d396fae9206628714fb2ce00f72e94f2258f"`
and root `"/depot"`, the path is
`/depot/f5/72/d3/96/f572d396fae9206628714fb2ce00f72e94f2258f.gz`. -/
theorem depot_path_sharding_witness :
    pathFromSha1HexEncoding "/depot".data
        "f572d396fae9206628714fb2ce00f72e94f2258f".data gzSuffix =
      some "/depot/f5/72/d3/96/f572d396fae9206628714fb2ce00f72e94f2258f.gz".data :=
  (depot_path_sharding "/depot".data
      "f572d396fae9206628714fb2ce00f72e94f2258f".data (by decide)).trans
    (by decide)

lemma crScan_spec (sa sb : List Char) :
    ∀ (n cursor : Nat) (lastSep : Option Nat),
      sa.length - cursor ≤ n →
      cursor ≤ sa.length → cursor ≤ sb.length →
      (∀ i, i < cursor → sa[i]? = sb[i]?) →
      lastSepInv sa cursor lastSep →
      cursor ≤ (crScan sa sb cursor lastSep).1
      ∧ (crScan sa sb cursor lastSep).1 ≤ sa.length
      ∧ (crScan sa sb cursor lastSep).1 ≤ sb.length
      ∧ (∀ i, i < (crScan sa sb cursor lastSep).1 → sa[i]? = sb[i]?)
      ∧ (∀ x y, sa[(crScan sa sb cursor lastSep).1]? = some x →
          sb[(crScan sa sb cursor lastSep).1]? = some y → x ≠ y)
      ∧ lastSepInv sa (crScan sa sb cursor lastSep).1
          (crScan sa sb cursor lastSep).2 := by
  intro n
  induction n with
  | zero =>
    intro cursor lastSep hn hca hcb hcommon hinv
    have hstop : crScan sa sb cursor lastSep = (cursor, lastSep) := by
      rw [crScan]
      rw [dif_neg (by omega : ¬ cursor < sa.length)]
    rw [hstop]
    refine ⟨le_refl _, by omega, hcb, hcommon, ?_, hinv⟩
    intro x y hx _
    rw [List.getElem?_eq_none (by omega : sa.length ≤ cursor)] at hx
    exact Option.noConfusion hx
  | succ n ih =>
    intro cursor lastSep hn hca hcb hcommon hinv
    by_cases ha : cursor < sa.length
    · by_cases hb : cursor < sb.length
      · by_cases heq : sa[cursor] = sb[cursor]
        · have hstep : crScan sa sb cursor lastSep =
              crScan sa sb (cursor + 1)
                (if sa[cursor] = '/' then some cursor else lastSep) := by
            rw [crScan]
            rw [dif_pos ha, dif_pos hb, if_pos heq]
          rw [hstep]
          have hcommon' : ∀ i, i < cursor + 1 → sa[i]? = sb[i]? := by
            intro i hi
            rcases Nat.lt_succ_iff_lt_or_eq.mp hi with hlt | hEqI
            · exact hcommon i hlt
            · subst hEqI
              rw [List.getElem?_eq_getElem ha, List.getElem?_eq_getElem hb, heq]
          have hinv' : lastSepInv sa (cursor + 1)
              (if sa[cursor] = '/' then some cursor else lastSep) := by
            by_cases hsep : sa[cursor] = '/'
            · rw [if_pos hsep]
              exact ⟨Nat.lt_succ_self _,
                by rw [List.getElem?_eq_getElem ha, hsep],
                fun j hj1 hj2 => by omega⟩
            · rw [if_neg hsep]
              cases lastSep with
              | none =>
                intro j hj
                rcases Nat.lt_succ_iff_lt_or_eq.mp hj with hlt | hEqJ
                · exact hinv j hlt
                · subst hEqJ
                  rw [List.getElem?_eq_getElem ha]
                  intro hcontra
                  exact hsep (Option.some.inj hcontra)
              | some ls =>
                obtain ⟨h1, h2, h3⟩ := hinv
                refine ⟨by omega, h2, ?_⟩
                intro j hj1 hj2
                rcases Nat.lt_succ_iff_lt_or_eq.mp hj2 with hlt | hEqJ
                · exact h3 j hj1 hlt
                · subst hEqJ
                  rw [List.getElem?_eq_getElem ha]
                  intro hcontra
                  exact hsep (Option.some.inj hcontra)
          obtain ⟨p1, p2, p3, p4, p5, p6⟩ := ih (cursor + 1)
            (if sa[cursor] = '/' then some cursor else lastSep)
            (by omega) (by omega) (by omega) hcommon' hinv'
          exact ⟨by omega, p2, p3, p4, p5, p6⟩
        · have hstop : crScan sa sb cursor lastSep = (cursor, lastSep) := by
            rw [crScan]
            rw [dif_pos ha, dif_pos hb, if_neg heq]
          rw [hstop]
          refine ⟨le_refl _, by omega, by omega, hcommon, ?_, hinv⟩
          intro x y hx hy
          rw [List.getElem?_eq_getElem ha] at hx
          rw [List.getElem?_eq_getElem hb] at hy
          have hx' := Option.some.inj hx
          have hy' := Option.some.inj hy
          intro hxy
          exact heq (hx'.trans (hxy.trans hy'.symm))
      · have hstop : crScan sa sb cursor lastSep = (cursor, lastSep) := by
          rw [crScan]
          rw [dif_pos ha, dif_neg hb]
        rw [hstop]
        refine ⟨le_refl _, by omega, by omega, hcommon, ?_, hinv⟩
        intro x y _ hy
        rw [List.getElem?_eq_none (by omega : sb.length ≤ cursor)] at hy
        exact Option.noConfusion hy
    · have hstop : crScan sa sb cursor lastSep = (cursor, lastSep) := by
        rw [crScan]
        rw [dif_neg ha]
      rw [hstop]
      refine ⟨le_refl _, by omega, by omega, hcommon, ?_, hinv⟩
      intro x y hx _
      rw [List.getElem?_eq_none (by omega : sa.length ≤ cursor)] at hx
      exact Option.noConfusion hx

lemma getZero_of_abs (q : List Char) (h : isAbsPath q = true) :
    q[0]? = some '/' := by
  cases q with
  | nil => simp [isAbsPath] at h
  | cons c cs =>
    have hc : c = '/' := by simpa [isAbsPath] using h
    subst hc
    simp

lemma commonRootCore_spec (ca cb : List Char)
    (hca0 : ca[0]? = some '/') (hcb0 : cb[0]? = some '/') :
    (ca = cb → commonRootCore ca cb = ca)
    ∧ (ca ≠ cb → ∃ j,
        j < ca.length ∧ j < cb.length ∧
        (∀ i, i ≤ j → ca[i]? = cb[i]?) ∧
        ca[j]? = some '/' ∧
        (∀ j', j < j' → ca[j']? = some '/' →
          (∀ i, i ≤ j' → ca[i]? = cb[i]?) → False) ∧
        commonRootCore ca cb = if j = 0 then ['/'] else ca.take j) := by
  obtain ⟨p1, p2, p3, p4, p5, p6⟩ := crScan_spec ca cb ca.length 0 none
    (by omega) (by omega) (by omega)
    (fun i hi => absurd hi (Nat.not_lt_zero i))
    (fun j hj => absurd hj (Nat.not_lt_zero j))
  constructor
  · intro hEqAB
    subst hEqAB
    have hr1 : (crScan ca ca 0 none).1 = ca.length := by
      by_contra hne
      have hlt : (crScan ca ca 0 none).1 < ca.length := lt_of_le_of_ne p2 hne
      exact p5 _ _ (List.getElem?_eq_getElem hlt)
        (List.getElem?_eq_getElem hlt) rfl
    simp [commonRootCore, hr1]
  · intro hNeq
    have hnotboth : ¬ ((crScan ca cb 0 none).1 = ca.length
        ∧ ca.length = cb.length) := by
      rintro ⟨h1, h2⟩
      apply hNeq
      apply List.ext_getElem?
      intro i
      by_cases hi : i < ca.length
      · exact p4 i (by omega)
      · rw [List.getElem?_eq_none (by omega : ca.length ≤ i),
          List.getElem?_eq_none (by omega : cb.length ≤ i)]
    have hr1pos : 0 < (crScan ca cb 0 none).1 := by
      rcases Nat.eq_zero_or_pos (crScan ca cb 0 none).1 with h0 | hpos
      · exact absurd rfl (p5 '/' '/' (by rw [h0]; exact hca0)
          (by rw [h0]; exact hcb0))
      · exact hpos
    obtain ⟨ls, hls⟩ : ∃ ls, (crScan ca cb 0 none).2 = some ls := by
      cases hcase : (crScan ca cb 0 none).2 with
      | none =>
        rw [hcase] at p6
        exact absurd hca0 (p6 0 hr1pos)
      | some ls => exact ⟨ls, rfl⟩
    rw [hls] at p6
    obtain ⟨q1, q2, q3⟩ := p6
    refine ⟨ls, by omega, by omega, fun i hi => p4 i (by omega), q2, ?_, ?_⟩
    · intro j' hj1 hj2 hj3
      by_cases hcase : j' < (crScan ca cb 0 none).1
      · exact q3 j' hj1 hcase hj2
      · have hjlen : j' < ca.length := by
          by_contra hge
          rw [List.getElem?_eq_none (by omega : ca.length ≤ j')] at hj2
          exact Option.noConfusion hj2
        have hx : ca[(crScan ca cb 0 none).1]?
            = some ca[(crScan ca cb 0 none).1] :=
          List.getElem?_eq_getElem (by omega)
        exact p5 _ _ hx
          (by rw [← hj3 (crScan ca cb 0 none).1 (by omega)]; exact hx) rfl
    · simp only [commonRootCore]
      rw [if_neg hnotboth, hls]
      by_cases hls0 : ls = 0
      · subst hls0
        simp
      · have htake : ca.take ls ≠ [] := by
          have hcane : ca ≠ [] := by
            intro h0
            rw [h0] at hca0
            exact Option.noConfusion hca0
          simp [List.take_eq_nil_iff, hls0, hcane]
        simp only [if_neg htake, if_neg hls0]

/-- **C5** (POSIX): for absolute `a`, `b`, `commonRoot` returns the
cleaned path itself when the two paths are byte-identical after cleaning;
otherwise it returns the cleaned common prefix cut at the last common
separator index `j` (exclusive), with `"/"` when that index is `0` — i.e.
when the paths share no directory.  (Volume names are always equal on
POSIX, so the differing-volume clause of the claim is vacuous here.) -/
theorem commonRoot_spec (pa pb : List Char)
    (hpa : isAbsPath pa = true) (hpb : isAbsPath pb = true) :
    (clean pa = clean pb → commonRoot pa pb = clean pa)
    ∧ (clean pa ≠ clean pb → ∃ j,
        j < (clean pa).length ∧ j < (clean pb).length ∧
        (∀ i, i ≤ j → (clean pa)[i]? = (clean pb)[i]?) ∧
        (clean pa)[j]? = some '/' ∧
        (∀ j', j < j' → (clean pa)[j']? = some '/' →
          (∀ i, i ≤ j' → (clean pa)[i]? = (clean pb)[i]?) → False) ∧
        commonRoot pa pb = if j = 0 then ['/'] else (clean pa).take j) := by
  have hpane : pa ≠ [] := by
    intro h
    rw [h] at hpa
    simp [isAbsPath] at hpa
  have hpbne : pb ≠ [] := by
    intro h
    rw [h] at hpb
    simp [isAbsPath] at hpb
  have hcr : commonRoot pa pb = commonRootCore (clean pa) (clean pb) := by
    simp only [commonRoot]
    rw [if_neg (by push_neg; exact ⟨hpane, hpbne⟩)]
  obtain ⟨w1, w2⟩ := commonRootCore_spec (clean pa) (clean pb)
    (getZero_of_abs _ (isAbsPath_clean pa hpa))
    (getZero_of_abs _ (isAbsPath_clean pb hpb))
  rw [hcr]
  exact ⟨w1, w2⟩

/-- Witness for C5: two paths that are byte-identical after cleaning
(`"/a/b/"` cleans to `"/a/b"`) yield the cleaned path itself. -/
theorem commonRoot_spec_witness :
    commonRoot "/a/b/".data "/a/b".data = "/a/b".data :=
  ((commonRoot_spec "/a/b/".data "/a/b".data (by decide) (by decide)).1
    (by decide)).trans (by decide)

end Romba
